import Mathlib

/-!
Verification of the CoNLL-U parser/serializer (`udtube/data/conllu.py`).

The development shallowly embeds the Python module: Python `str` values
become `String`/`List Char`, Python dicts (which preserve insertion order)
become association lists with an order-preserving, last-write-wins insert,
and the regular expression used for metadata detection is modelled by an
explicit functional scanner with the same backtracking semantics.
-/

namespace Conllu

/-- Characters treated as whitespace by Python: the set accepted by
`str.strip()` with no arguments and matched by the regex class `\s`
(Unicode whitespace). -/
def isPyWs (c : Char) : Bool :=
  c = '\t' || c = '\n' || c = '\x0b' || c = '\x0c' || c = '\r' ||
  c = '\x1c' || c = '\x1d' || c = '\x1e' || c = '\x1f' || c = ' ' ||
  c = '\x85' || c = '\xa0' || c = '\u1680' ||
  ('\u2000' ≤ c && c ≤ '\u200a') ||
  c = '\u2028' || c = '\u2029' || c = '\u202f' || c = '\u205f' || c = '\u3000'

/-- Characters at which Python's `str.splitlines()` breaks lines. -/
def isPyLineBreak (c : Char) : Bool :=
  c = '\n' || c = '\r' || c = '\x0b' || c = '\x0c' || c = '\x1c' ||
  c = '\x1d' || c = '\x1e' || c = '\x85' || c = '\u2028' || c = '\u2029'

/-- Python `str.strip()` on a character list: drop whitespace from both
ends. -/
def pyStripL (cs : List Char) : List Char :=
  ((cs.dropWhile isPyWs).reverse.dropWhile isPyWs).reverse

/-- Python `str.strip()`. -/
def pyStrip (s : String) : String :=
  String.mk (pyStripL s.toList)

/-- Worker for `str.splitlines()`: `acc` holds the (reversed) characters of
the line being accumulated.  A final line break produces no trailing empty
line; `"\r\n"` counts as a single break. -/
def pySplitlinesGo : List Char → List Char → List (List Char)
  | [], acc => if acc = [] then [] else [acc.reverse]
  | c :: rest, acc =>
    if c = '\r' then
      match rest with
      | c2 :: rest2 =>
        if c2 = '\n' then acc.reverse :: pySplitlinesGo rest2 []
        else acc.reverse :: pySplitlinesGo (c2 :: rest2) []
      | [] => acc.reverse :: pySplitlinesGo [] []
    else if isPyLineBreak c then acc.reverse :: pySplitlinesGo rest []
    else pySplitlinesGo rest (c :: acc)

/-- Python `str.splitlines()` on a character list. -/
def pySplitlinesL (cs : List Char) : List (List Char) :=
  pySplitlinesGo cs []

/-- Worker for Python `str.split("\t")`. -/
def splitTabGo : List Char → List Char → List (List Char)
  | [], acc => [acc.reverse]
  | c :: rest, acc =>
    if c = '\t' then acc.reverse :: splitTabGo rest []
    else splitTabGo rest (c :: acc)

/-- Python `line.split("\t")`: split at every tab, keeping empty pieces;
the empty string yields `[[]]`. -/
def splitTabL (cs : List Char) : List (List Char) :=
  splitTabGo cs []

/-- Python `sep.join(pieces)` on lists. -/
def joinSep {α : Type} (sep : List α) : List (List α) → List α
  | [] => []
  | [l] => l
  | l :: l2 :: ls => l ++ sep ++ joinSep sep (l2 :: ls)

/-- The fixed ten-column CoNLL-U schema (`_fieldnames` in the source). -/
def _fieldnames : List String :=
  ["id", "form", "lemma", "upos", "xpos", "feats", "head", "deprel",
   "deps", "misc"]

/-- A token: a Python `Dict[str, str]`, i.e. an insertion-ordered
association list. -/
abbrev Token := List (String × String)

/-- Python `token.get(key)` returning `None` when absent. -/
def tokenField (tok : Token) (f : String) : Option String :=
  (tok.find? (fun p => p.1 == f)).map Prod.snd

/-- Python `token.get(key, dflt)`. -/
def tokenGet (tok : Token) (f : String) (dflt : String) : String :=
  (tokenField tok f).getD dflt

/-- The `_parse_token`: `dict(zip(_fieldnames, line.split("\t")))`.  `zip`
truncates at the shorter list, so surplus cells are dropped and missing
trailing fields stay absent. -/
def parseTokenL (line : List Char) : Token :=
  _fieldnames.zip ((splitTabL line).map String.mk)

/-- The `_parse_token` on a `String`. -/
def _parse_token (line : String) : Token :=
  parseTokenL line.toList

/-- Sentence metadata: a Python `Dict[str, Optional[str]]` as an
insertion-ordered association list. -/
abbrev Metadata := List (String × Option String)

/-- Python `d[k] = v` on an insertion-ordered dict: overwrite in place when
the key exists, append otherwise. -/
def dictInsert (d : Metadata) (k : String) (v : Option String) : Metadata :=
  if d.any (fun p => p.1 == k) then
    d.map (fun p => if p.1 == k then (k, v) else p)
  else d ++ [(k, v)]

/-- The `TokenList` class: a list of tokens with attached metadata. -/
structure TokenList where
  tokens : List Token
  metadata : Metadata
deriving DecidableEq

/-- One serialized metadata line.  The source tests Python truthiness
(`if value:`), so both `None` and the empty string render as `# key`. -/
def metadataLineL (kv : String × Option String) : List Char :=
  match kv.2 with
  | some v =>
    if v = "" then '#' :: ' ' :: kv.1.toList
    else '#' :: ' ' :: (kv.1.toList ++ ' ' :: '=' :: ' ' :: v.toList)
  | none => '#' :: ' ' :: kv.1.toList

/-- One serialized token line: the ten schema fields, absent ones rendered
as `_`, joined by tabs. -/
def tokenLineL (tok : Token) : List Char :=
  joinSep ['\t'] (_fieldnames.map (fun f => (tokenGet tok f "_").toList))

/-- The `TokenList.serialize` on character lists: metadata lines then token
lines, joined by newlines, plus a trailing newline. -/
def TokenList.serializeL (tl : TokenList) : List Char :=
  joinSep ['\n'] (tl.metadata.map metadataLineL ++ tl.tokens.map tokenLineL)
    ++ ['\n']

/-- The `TokenList.serialize`. -/
def TokenList.serialize (tl : TokenList) : String :=
  String.mk tl.serializeL

/-- The optional group `(\s+=\s+(.*))?` of the metadata pattern, matched
against the remainder of the line after a candidate key: it succeeds iff
the remainder is a nonempty whitespace run, `=`, a nonempty whitespace run
and then the value (both runs maximal, as the greedy `\s+` produces). -/
def eqSepValue : List Char → Option (List Char)
  | c :: rest =>
    if isPyWs c then
      match rest.dropWhile isPyWs with
      | e :: rest2 =>
        if e = '=' then
          match rest2 with
          | d :: r3 => if isPyWs d then some (r3.dropWhile isPyWs) else none
          | [] => none
        else none
      | [] => none
    else none
  | [] => none

/-- The key scan of `#\s+(.+?)(\s+=\s+(.*))?`: the lazy `(.+?)` grows the
key one character at a time, at each length first trying the `=` group on
the remainder and then (only at the end of the line) the group-absent
alternative.  Returns the key (via the reversed accumulator `keyRev`) and
the optional value. -/
def keySearch : List Char → List Char → Option (List Char × Option (List Char))
  | _, [] => none
  | keyRev, c :: rest =>
    match eqSepValue rest with
    | some v => some ((c :: keyRev).reverse, some v)
    | none =>
      if rest = [] then some ((c :: keyRev).reverse, none)
      else keySearch (c :: keyRev) rest

/-- The `_maybe_parse_metadata`: functional model of
`re.fullmatch(r"#\s+(.+?)(\s+=\s+(.*))?", line)` returning the first and
third groups.  The second match arm handles the backtracking case where
everything after `#` is whitespace (only reachable on unstripped input):
the greedy `\s+` then gives one character back to the lazy key. -/
def maybeMetaL : List Char → Option (List Char × Option (List Char))
  | a :: c :: rest =>
    if a = '#' then
      if isPyWs c then
        match keySearch [] (rest.dropWhile isPyWs) with
        | some kv => some kv
        | none =>
          match rest.reverse with
          | d :: _ => some ([d], none)
          | [] => none
      else none
    else none
  | _ => none

/-- The `_maybe_parse_metadata` on a `String`. -/
def _maybe_parse_metadata (line : String) : Option (String × Option String) :=
  (maybeMetaL line.toList).map
    (fun kv => (String.mk kv.1, kv.2.map String.mk))

/-- Classification of one (raw) line, shared by both parsers: strip, then
record a metadata entry or append a parsed token. -/
def stepLine (st : Metadata × List Token) (raw : List Char) :
    Metadata × List Token :=
  match maybeMetaL (pyStripL raw) with
  | some (k, v) => (dictInsert st.1 (String.mk k) (v.map String.mk), st.2)
  | none => (st.1, st.2 ++ [parseTokenL (pyStripL raw)])

/-- The `parse_from_string`: classify every line of the buffer (blank lines
included) and build a single `TokenList`. -/
def parse_from_string (buffer : String) : TokenList :=
  ⟨((pySplitlinesL buffer.toList).foldl stepLine ([], [])).2,
   ((pySplitlinesL buffer.toList).foldl stepLine ([], [])).1⟩

/-- A line that Python's `if not line:` test (after stripping) regards as
blank. -/
def isBlankLine (l : String) : Bool :=
  (pyStripL l.toList).isEmpty

/-- The loop of `_parse_from_handle`: on a blank line emit a snapshot when
something is accumulated, otherwise classify the line; at end of input
flush nonempty accumulators. -/
def parseFromLines : List String → Metadata → List Token → List TokenList
  | [], md, toks =>
    if toks.isEmpty && md.isEmpty then [] else [⟨toks, md⟩]
  | l :: rest, md, toks =>
    if (pyStripL l.toList).isEmpty then
      if toks.isEmpty && md.isEmpty then parseFromLines rest md toks
      else ⟨toks, md⟩ :: parseFromLines rest [] []
    else
      match stepLine (md, toks) l.toList with
      | (md2, toks2) => parseFromLines rest md2 toks2

/-- The `_parse_from_handle`, with the file handle abstracted as its list of
lines. -/
def _parse_from_handle (lines : List String) : List TokenList :=
  parseFromLines lines [] []

/-- One sentence block of a multi-sentence document, collapsed to the
Sentence Unit its lines accumulate (metadata map and token list built with
the shared line classifier from empty accumulators). -/
def blockUnit (b : List String) : TokenList :=
  ⟨((b.map (fun l => l.toList)).foldl stepLine ([], [])).2,
   ((b.map (fun l => l.toList)).foldl stepLine ([], [])).1⟩

/-- A line source with runs of consecutive blank lines collapsed to single
blank lines (the last blank of each run is kept). -/
def collapseBlanks : List String → List String
  | [] => []
  | [l] => [l]
  | l :: l2 :: rest =>
    if isBlankLine l && isBlankLine l2 then collapseBlanks (l2 :: rest)
    else l :: collapseBlanks (l2 :: rest)

/-- Modelled from the spec: the metadata line rendering exactly as claim C2
words it, with the `# key = value` form used whenever the value is present
(not absent/None). -/
def specMetadataLine (kv : String × Option String) : List Char :=
  match kv.2 with
  | some v => '#' :: ' ' :: (kv.1.toList ++ ' ' :: '=' :: ' ' :: v.toList)
  | none => '#' :: ' ' :: kv.1.toList

/-- The metadata line rendering as the amended claim C2 words it: the
`# key = value` form requires a present and nonempty value; an absent or
empty value renders as `# key`. -/
def specMetadataLineAmended (kv : String × Option String) : List Char :=
  match kv.2 with
  | some v =>
    if v ≠ "" then '#' :: ' ' :: (kv.1.toList ++ ' ' :: '=' :: ' ' :: v.toList)
    else '#' :: ' ' :: kv.1.toList
  | none => '#' :: ' ' :: kv.1.toList

/-- No character of the list is a line break. -/
def lineOK (l : List Char) : Prop := ∀ c ∈ l, isPyLineBreak c = false

instance (l : List Char) : Decidable (lineOK l) := by
  unfold lineOK
  infer_instance

/-- No character of the list is a tab. -/
def tabFree (l : List Char) : Prop := ∀ c ∈ l, c ≠ '\t'

instance (l : List Char) : Decidable (tabFree l) := by
  unfold tabFree
  infer_instance

/-- A string free of tabs and line-break characters. -/
def cleanStr (s : String) : Prop :=
  ∀ c ∈ s.toList, c ≠ '\t' ∧ isPyLineBreak c = false

instance (s : String) : Decidable (cleanStr s) := by
  unfold cleanStr
  infer_instance

/-- The first character, if any, is not Python whitespace. -/
def headNoWs (s : String) : Prop :=
  ∀ c ∈ s.toList.head?.toList, isPyWs c = false

instance (s : String) : Decidable (headNoWs s) := by
  unfold headNoWs
  infer_instance

/-- The last character, if any, is not Python whitespace. -/
def lastNoWs (s : String) : Prop :=
  ∀ c ∈ s.toList.getLast?.toList, isPyWs c = false

instance (s : String) : Decidable (lastNoWs s) := by
  unfold lastNoWs
  infer_instance

/-- Conditions on a metadata value under which serialization is invertible:
either absent, or nonempty with no tab/line break and no whitespace at
either end. -/
def metaValOK : Option String → Prop
  | none => True
  | some s => s ≠ "" ∧ cleanStr s ∧ headNoWs s ∧ lastNoWs s

instance : (v : Option String) → Decidable (metaValOK v)
  | none => by unfold metaValOK; infer_instance
  | some _ => by unfold metaValOK; infer_instance

/-- Conditions on a metadata entry under which its serialized line parses
back to the same entry: nonempty key without `=`, tabs, line breaks or
whitespace at either end, and a well-behaved value. -/
def metaEntryOK (kv : String × Option String) : Prop :=
  kv.1 ≠ "" ∧ cleanStr kv.1 ∧ '=' ∉ kv.1.toList ∧
  headNoWs kv.1 ∧ lastNoWs kv.1 ∧ metaValOK kv.2

instance (kv : String × Option String) : Decidable (metaEntryOK kv) := by
  unfold metaEntryOK
  infer_instance

/-- Conditions on a token under which its serialized line parses back to
the same field values: rendered cells free of tabs and line breaks, a
rendered first cell that is nonempty and starts with neither whitespace
nor `#`, and a rendered last cell that is nonempty and does not end in
whitespace. -/
def tokenOK (tok : Token) : Prop :=
  (∀ f ∈ _fieldnames, cleanStr (tokenGet tok f "_")) ∧
  tokenGet tok "id" "_" ≠ "" ∧
  headNoWs (tokenGet tok "id" "_") ∧
  (∀ c ∈ (tokenGet tok "id" "_").toList.head?.toList, c ≠ '#') ∧
  tokenGet tok "misc" "_" ≠ "" ∧
  lastNoWs (tokenGet tok "misc" "_")

instance (tok : Token) : Decidable (tokenOK tok) := by
  unfold tokenOK
  infer_instance

/-- The per-field rendering of a token: the ten schema field values in
canonical order, absent fields as the placeholder `_`. -/
def renderFields (tok : Token) : List String :=
  _fieldnames.map (fun f => tokenGet tok f "_")


/-! ### Support lemmas -/

/-- The `dropWhile` is the identity when the head fails the predicate. -/
theorem dropWhile_eq_self (p : Char → Bool) (l : List Char)
    (h : ∀ c, l.head? = some c → p c = false) : l.dropWhile p = l := by
  cases l with
  | nil => rfl
  | cons a t => simp [List.dropWhile_cons, h a rfl]

/-- The `pyStripL` is the identity on lists with non-whitespace ends. -/
theorem pyStripL_eq_self (l : List Char)
    (hh : ∀ c, l.head? = some c → isPyWs c = false)
    (hl : ∀ c, l.getLast? = some c → isPyWs c = false) : pyStripL l = l := by
  unfold pyStripL
  rw [dropWhile_eq_self _ _ hh]
  rw [dropWhile_eq_self _ _ (by
    intro c hc
    rw [List.head?_reverse] at hc
    exact hl c hc)]
  exact List.reverse_reverse l

/-- Splitting consumes one break-free line up to the next newline. -/
theorem pySplitlinesGo_append (l : List Char) (rest acc : List Char)
    (h : lineOK l) :
    pySplitlinesGo (l ++ '\n' :: rest) acc
      = (acc.reverse ++ l) :: pySplitlinesGo rest [] := by
  induction l generalizing acc with
  | nil =>
    show pySplitlinesGo ('\n' :: rest) acc = _
    rw [pySplitlinesGo.eq_def]
    simp only []
    rw [if_neg (by decide), if_pos (by decide)]
    simp
  | cons a t ih =>
    have ha : isPyLineBreak a = false := h a (List.mem_cons_self a t)
    have ht : lineOK t := fun c hc => h c (List.mem_cons_of_mem a hc)
    have har : a ≠ '\r' := by
      intro hr
      rw [hr] at ha
      exact absurd ha (by decide)
    rw [List.cons_append]
    rw [show pySplitlinesGo (a :: (t ++ '\n' :: rest)) acc
        = pySplitlinesGo (t ++ '\n' :: rest) (a :: acc) by
      rw [pySplitlinesGo.eq_def]
      simp [har, ha]]
    rw [ih _ ht]
    simp

/-- The `pySplitlinesL` undoes joining break-free lines with newlines, as long
as there is at least one line. -/
theorem pySplitlinesL_joinSep (ls : List (List Char)) (hne : ls ≠ [])
    (h : ∀ l ∈ ls, lineOK l) :
    pySplitlinesL (joinSep ['\n'] ls ++ ['\n']) = ls := by
  induction ls with
  | nil => exact absurd rfl hne
  | cons l ls ih =>
    cases ls with
    | nil =>
      show pySplitlinesGo (l ++ '\n' :: []) [] = [l]
      rw [pySplitlinesGo_append l [] [] (h l (List.mem_cons_self l []))]
      rfl
    | cons l2 ls2 =>
      have hjoin : joinSep ['\n'] (l :: l2 :: ls2) ++ ['\n']
          = l ++ '\n' :: (joinSep ['\n'] (l2 :: ls2) ++ ['\n']) := by
        simp [joinSep]
      show pySplitlinesGo (joinSep ['\n'] (l :: l2 :: ls2) ++ ['\n']) []
        = l :: l2 :: ls2
      rw [hjoin, pySplitlinesGo_append l _ [] (h l (List.mem_cons_self l _))]
      simp only [List.reverse_nil, List.nil_append, List.cons.injEq, true_and]
      exact ih (by simp) (fun x hx => h x (List.mem_cons_of_mem l hx))

/-- Tab-splitting consumes one tab-free cell up to the next tab. -/
theorem splitTabGo_append (l rest acc : List Char) (h : tabFree l) :
    splitTabGo (l ++ '\t' :: rest) acc
      = (acc.reverse ++ l) :: splitTabGo rest [] := by
  induction l generalizing acc with
  | nil => simp [splitTabGo]
  | cons a t ih =>
    have ha : a ≠ '\t' := h a (List.mem_cons_self a t)
    have ht : tabFree t := fun c hc => h c (List.mem_cons_of_mem a hc)
    rw [List.cons_append]
    rw [show splitTabGo (a :: (t ++ '\t' :: rest)) acc
        = splitTabGo (t ++ '\t' :: rest) (a :: acc) by
      rw [splitTabGo.eq_def]
      simp [ha]]
    rw [ih _ ht]
    simp

/-- Tab-splitting a tab-free list yields the single cell. -/
theorem splitTabGo_single (l acc : List Char) (h : tabFree l) :
    splitTabGo l acc = [acc.reverse ++ l] := by
  induction l generalizing acc with
  | nil => simp [splitTabGo]
  | cons a t ih =>
    have ha : a ≠ '\t' := h a (List.mem_cons_self a t)
    have ht : tabFree t := fun c hc => h c (List.mem_cons_of_mem a hc)
    rw [show splitTabGo (a :: t) acc = splitTabGo t (a :: acc) by
      rw [splitTabGo.eq_def]
      simp [ha]]
    rw [ih _ ht]
    simp

/-- The `splitTabL` undoes joining tab-free cells with tabs. -/
theorem splitTabL_joinSep (cells : List (List Char)) (hne : cells ≠ [])
    (h : ∀ l ∈ cells, tabFree l) :
    splitTabL (joinSep ['\t'] cells) = cells := by
  induction cells with
  | nil => exact absurd rfl hne
  | cons l ls ih =>
    cases ls with
    | nil => exact splitTabGo_single l [] (h l (List.mem_cons_self l []))
    | cons l2 ls2 =>
      have hjoin : joinSep ['\t'] (l :: l2 :: ls2)
          = l ++ '\t' :: joinSep ['\t'] (l2 :: ls2) := by
        simp [joinSep]
      show splitTabGo (joinSep ['\t'] (l :: l2 :: ls2)) [] = l :: l2 :: ls2
      rw [hjoin, splitTabGo_append l _ [] (h l (List.mem_cons_self l _))]
      simp only [List.reverse_nil, List.nil_append, List.cons.injEq, true_and]
      exact ih (by simp) (fun x hx => h x (List.mem_cons_of_mem l hx))

/-- The `dropWhile` of a list whose last element fails the predicate is
nonempty. -/
theorem dropWhile_ne_nil_of_getLast (p : Char → Bool) (l : List Char)
    (hne : l ≠ []) (hl : ∀ c, l.getLast? = some c → p c = false) :
    l.dropWhile p ≠ [] := by
  induction l with
  | nil => exact absurd rfl hne
  | cons a t ih =>
    cases t with
    | nil =>
      have ha := hl a rfl
      simp [List.dropWhile_cons, ha]
    | cons b t2 =>
      have hl2 : ∀ c, (b :: t2).getLast? = some c → p c = false := by
        intro c hc
        exact hl c (by rw [List.getLast?_cons_cons]; exact hc)
      by_cases hpa : p a = true
      · simpa [List.dropWhile_cons, hpa] using ih (by simp) hl2
      · simp [List.dropWhile_cons, hpa]

/-- The head of a nonempty `dropWhile` result is a member of the list and
fails the predicate. -/
theorem dropWhile_head_spec (p : Char → Bool) (l : List Char) (d : Char)
    (ds : List Char) (h : l.dropWhile p = d :: ds) : d ∈ l ∧ p d = false := by
  induction l with
  | nil => simp at h
  | cons a t ih =>
    rw [List.dropWhile_cons] at h
    by_cases hpa : p a = true
    · rw [if_pos hpa] at h
      rcases ih h with ⟨hm, hp⟩
      exact ⟨List.mem_cons_of_mem a hm, hp⟩
    · rw [if_neg hpa] at h
      injection h with h1 h2
      subst h1
      exact ⟨List.mem_cons_self a t, by simpa using hpa⟩

/-- The `=` group succeeds on the canonical serialized separator followed
by a value with no leading whitespace. -/
theorem eqSepValue_sep (v : List Char)
    (hv : ∀ c, v.head? = some c → isPyWs c = false) :
    eqSepValue (' ' :: '=' :: ' ' :: v) = some v := by
  rw [show eqSepValue (' ' :: '=' :: ' ' :: v)
      = some (v.dropWhile isPyWs) from rfl]
  rw [dropWhile_eq_self _ _ hv]

/-- The `=` group fails whenever the remainder starts inside a chunk that
contains no `=`, does not end in whitespace and is nonempty. -/
theorem eqSepValue_append_none (k : List Char) (hne : k ≠ [])
    (hlast : ∀ c, k.getLast? = some c → isPyWs c = false)
    (hnoeq : '=' ∉ k) (suffix : List Char) :
    eqSepValue (k ++ suffix) = none := by
  cases k with
  | nil => exact absurd rfl hne
  | cons c r =>
    rw [List.cons_append]
    cases hc : isPyWs c with
    | false => simp [eqSepValue, hc]
    | true =>
      cases r with
      | nil => exact absurd (hlast c rfl) (by simp [hc])
      | cons b r2 =>
        have hlast2 : ∀ x, (b :: r2).getLast? = some x → isPyWs x = false := by
          intro x hx
          exact hlast x (by rw [List.getLast?_cons_cons]; exact hx)
        have hdw : (b :: r2).dropWhile isPyWs ≠ [] :=
          dropWhile_ne_nil_of_getLast isPyWs (b :: r2) (by simp) hlast2
        obtain ⟨d, ds, hds⟩ : ∃ d ds, (b :: r2).dropWhile isPyWs = d :: ds := by
          cases hx : (b :: r2).dropWhile isPyWs with
          | nil => exact absurd hx hdw
          | cons d ds => exact ⟨d, ds, rfl⟩
        have hdspec := dropWhile_head_spec isPyWs (b :: r2) d ds hds
        have hdne : d ≠ '=' := by
          intro he
          exact hnoeq (he ▸ List.mem_cons_of_mem c hdspec.1)
        have happ : List.dropWhile isPyWs (b :: (r2 ++ suffix))
            = d :: (ds ++ suffix) := by
          rw [show b :: (r2 ++ suffix) = (b :: r2) ++ suffix from rfl,
            List.dropWhile_append]
          simp [hds]
        simp [eqSepValue, hc, happ, hdne]

/-- The key scan, when the whole remaining line is a chunk with no `=`
that does not end in whitespace, returns the chunk as key with no value. -/
theorem keySearch_flag (k : List Char) (keyRev : List Char) (hne : k ≠ [])
    (hlast : ∀ c, k.getLast? = some c → isPyWs c = false)
    (hnoeq : '=' ∉ k) :
    keySearch keyRev k = some (keyRev.reverse ++ k, none) := by
  induction k generalizing keyRev with
  | nil => exact absurd rfl hne
  | cons a t ih =>
    cases t with
    | nil => simp [keySearch, eqSepValue]
    | cons b t2 =>
      have hlast2 : ∀ c, (b :: t2).getLast? = some c → isPyWs c = false := by
        intro c hc
        exact hlast c (by rw [List.getLast?_cons_cons]; exact hc)
      have hnoeq2 : '=' ∉ (b :: t2) := fun hm => hnoeq (List.mem_cons_of_mem a hm)
      have hsep : eqSepValue (b :: t2) = none := by
        simpa using eqSepValue_append_none (b :: t2) (by simp) hlast2 hnoeq2 []
      rw [keySearch.eq_def]
      simp only [hsep]
      rw [if_neg (by simp)]
      rw [ih (a :: keyRev) (by simp) hlast2 hnoeq2]
      simp

/-- The key scan, when the line is a chunk with no `=` not ending in
whitespace followed by a successful `=` group, splits exactly at the
boundary. -/
theorem keySearch_value (k suffix v : List Char) (keyRev : List Char)
    (hne : k ≠ [])
    (hlast : ∀ c, k.getLast? = some c → isPyWs c = false)
    (hnoeq : '=' ∉ k) (hsuf : eqSepValue suffix = some v) :
    keySearch keyRev (k ++ suffix) = some (keyRev.reverse ++ k, some v) := by
  induction k generalizing keyRev with
  | nil => exact absurd rfl hne
  | cons a t ih =>
    cases t with
    | nil =>
      cases suffix with
      | nil => simp [eqSepValue] at hsuf
      | cons s srest =>
        rw [List.cons_append, List.nil_append, keySearch.eq_def]
        simp [hsuf]
    | cons b t2 =>
      have hlast2 : ∀ c, (b :: t2).getLast? = some c → isPyWs c = false := by
        intro c hc
        exact hlast c (by rw [List.getLast?_cons_cons]; exact hc)
      have hnoeq2 : '=' ∉ (b :: t2) := fun hm => hnoeq (List.mem_cons_of_mem a hm)
      have hsep : eqSepValue ((b :: t2) ++ suffix) = none :=
        eqSepValue_append_none (b :: t2) (by simp) hlast2 hnoeq2 suffix
      rw [List.cons_append, keySearch.eq_def]
      simp only [hsep]
      rw [if_neg (by simp)]
      rw [ih (a :: keyRev) (by simp) hlast2 hnoeq2]
      simp

/-- The `_maybe_parse_metadata` recovers a flag entry from its serialized
line. -/
theorem maybeMetaL_flag (k : List Char) (hne : k ≠ [])
    (hhead : ∀ c, k.head? = some c → isPyWs c = false)
    (hlast : ∀ c, k.getLast? = some c → isPyWs c = false)
    (hnoeq : '=' ∉ k) :
    maybeMetaL ('#' :: ' ' :: k) = some (k, none) := by
  cases k with
  | nil => exact absurd rfl hne
  | cons a t =>
    simp only [maybeMetaL]
    rw [if_pos trivial, if_pos (by decide)]
    rw [dropWhile_eq_self isPyWs (a :: t) hhead]
    rw [keySearch_flag (a :: t) [] (by simp) hlast hnoeq]
    simp

/-- The `_maybe_parse_metadata` recovers a valued entry from its serialized
line. -/
theorem maybeMetaL_valued (k v : List Char) (hne : k ≠ [])
    (hhead : ∀ c, k.head? = some c → isPyWs c = false)
    (hlast : ∀ c, k.getLast? = some c → isPyWs c = false)
    (hnoeq : '=' ∉ k)
    (hvhead : ∀ c, v.head? = some c → isPyWs c = false) :
    maybeMetaL ('#' :: ' ' :: (k ++ ' ' :: '=' :: ' ' :: v))
      = some (k, some v) := by
  cases k with
  | nil => exact absurd rfl hne
  | cons a t =>
    have hh : ∀ c, ((a :: t) ++ ' ' :: '=' :: ' ' :: v).head? = some c →
        isPyWs c = false := by
      intro c hc
      rw [List.cons_append, List.head?_cons] at hc
      exact hhead c (by rw [List.head?_cons]; exact hc)
    rw [List.cons_append, maybeMetaL.eq_def]
    simp only []
    rw [if_pos trivial, if_pos (by decide)]
    rw [show a :: (t ++ ' ' :: '=' :: ' ' :: v)
        = (a :: t) ++ ' ' :: '=' :: ' ' :: v from rfl]
    rw [dropWhile_eq_self isPyWs _ hh]
    rw [keySearch_value (a :: t) (' ' :: '=' :: ' ' :: v) v [] (by simp)
      hlast hnoeq (eqSepValue_sep v hvhead)]
    simp

/-- A line that does not start with `#` is never metadata. -/
theorem maybeMetaL_not_hash (l : List Char)
    (h : ∀ c, l.head? = some c → c ≠ '#') : maybeMetaL l = none := by
  cases l with
  | nil => rfl
  | cons a t =>
    cases t with
    | nil => rfl
    | cons b t2 =>
      have ha : a ≠ '#' := h a rfl
      simp [maybeMetaL, ha]

/-- Membership in a joined list comes from the separator or from a piece. -/
theorem mem_joinSep {α : Type} (sep : List α) (ls : List (List α)) (c : α)
    (hc : c ∈ joinSep sep ls) : c ∈ sep ∨ ∃ l ∈ ls, c ∈ l := by
  induction ls with
  | nil => simp [joinSep] at hc
  | cons l ls ih =>
    cases ls with
    | nil =>
      right
      exact ⟨l, List.mem_cons_self l [], hc⟩
    | cons l2 ls2 =>
      rw [show joinSep sep (l :: l2 :: ls2) = l ++ sep ++ joinSep sep (l2 :: ls2)
          from rfl] at hc
      rcases List.mem_append.mp hc with h1 | h2
      · rcases List.mem_append.mp h1 with h3 | h4
        · right; exact ⟨l, List.mem_cons_self l _, h3⟩
        · left; exact h4
      · rcases ih h2 with h5 | ⟨x, hx, hcx⟩
        · left; exact h5
        · right; exact ⟨x, List.mem_cons_of_mem l hx, hcx⟩

/-- Transfer a bounded condition on an optional character to the equation
form. -/
theorem of_opt_cond {p : Char → Bool} {o : Option Char}
    (h : ∀ c ∈ o.toList, p c = false) : ∀ c, o = some c → p c = false := by
  intro c hc
  subst hc
  exact h c (by simp)

/-- The `getLast?` skips a cons when the tail is nonempty. -/
theorem getLast?_cons_of_ne_nil (a : Char) (l : List Char) (h : l ≠ []) :
    (a :: l).getLast? = l.getLast? := by
  cases l with
  | nil => exact absurd rfl h
  | cons b t => exact List.getLast?_cons_cons

/-- The `getLast?` of an append with nonempty second part. -/
theorem getLast?_append_of_ne_nil (l l2 : List Char) (h : l2 ≠ []) :
    (l ++ l2).getLast? = l2.getLast? := by
  rw [List.getLast?_append]
  cases hx : l2.getLast? with
  | none => exact absurd (List.getLast?_eq_none_iff.mp hx) h
  | some c => rfl

/-- The `joinSep` on a list with at least two pieces. -/
theorem joinSep_cons {α : Type} (sep l : List α) (ls : List (List α))
    (h : ls ≠ []) :
    joinSep sep (l :: ls) = l ++ sep ++ joinSep sep ls := by
  cases ls with
  | nil => exact absurd rfl h
  | cons a t => rfl

/-- The head of a joined list is the head of its nonempty first piece. -/
theorem joinSep_head? {α : Type} (sep l : List α) (ls : List (List α))
    (h : l ≠ []) : (joinSep sep (l :: ls)).head? = l.head? := by
  obtain ⟨c, t, rfl⟩ : ∃ c t, l = c :: t := by
    cases l with
    | nil => exact absurd rfl h
    | cons c t => exact ⟨c, t, rfl⟩
  cases ls with
  | nil => rfl
  | cons l2 ls2 =>
    rw [joinSep_cons sep _ _ (by simp)]
    simp

/-- The last element of a joined list is the last of its nonempty final
piece. -/
theorem joinSep_getLast? {α : Type} (sep : List α) (ls : List (List α))
    (l : List α) (h : l ≠ []) :
    (joinSep sep (ls ++ [l])).getLast? = l.getLast? := by
  induction ls with
  | nil => rfl
  | cons a ls2 ih =>
    rw [List.cons_append, joinSep_cons sep a _ (by simp)]
    rw [List.getLast?_append, ih]
    cases hx : l.getLast? with
    | none => exact absurd (List.getLast?_eq_none_iff.mp hx) h
    | some c => rfl

/-- The rendered metadata line of a well-behaved entry is free of line
breaks. -/
theorem metadataLineL_lineOK (kv : String × Option String)
    (h : metaEntryOK kv) : lineOK (metadataLineL kv) := by
  obtain ⟨h1, h2, h3, h4, h5, h6⟩ := h
  obtain ⟨k, v⟩ := kv
  intro c hc
  cases v with
  | none =>
    simp only [metadataLineL, List.mem_cons] at hc
    rcases hc with rfl | rfl | hck
    · decide
    · decide
    · exact (h2 c hck).2
  | some s =>
    unfold metaValOK at h6
    obtain ⟨hs1, hs2, hs3, hs4⟩ := h6
    simp only [metadataLineL, if_neg hs1, List.mem_cons] at hc
    rcases hc with rfl | rfl | hck
    · decide
    · decide
    · rcases List.mem_append.mp hck with hk | hrest
      · exact (h2 c hk).2
      · simp only [List.mem_cons] at hrest
        rcases hrest with rfl | rfl | rfl | hs
        · decide
        · decide
        · decide
        · exact (hs2 c hs).2

/-- The rendered token line of a token with clean cells is free of line
breaks. -/
theorem tokenLineL_lineOK (tok : Token)
    (h : ∀ f ∈ _fieldnames, cleanStr (tokenGet tok f "_")) :
    lineOK (tokenLineL tok) := by
  intro c hc
  rcases mem_joinSep _ _ c hc with hsep | ⟨l, hl, hcl⟩
  · simp only [List.mem_cons, List.not_mem_nil, or_false] at hsep
    subst hsep
    decide
  · rcases List.mem_map.mp hl with ⟨f, hf, rfl⟩
    exact (h f hf c hcl).2

/-- Python dict insertion with a fresh key appends the pair. -/
theorem dictInsert_fresh (d : Metadata) (k : String) (v : Option String)
    (h : ∀ p ∈ d, p.1 ≠ k) : dictInsert d k v = d ++ [(k, v)] := by
  unfold dictInsert
  rw [if_neg]
  intro hx
  rw [List.any_eq_true] at hx
  obtain ⟨p, hp, hpk⟩ := hx
  exact h p hp (by simpa using hpk)

/-- The `stepLine` on the serialized line of a well-behaved metadata entry
records exactly that entry. -/
theorem stepLine_metaLine (st : Metadata × List Token)
    (kv : String × Option String) (h : metaEntryOK kv) :
    stepLine st (metadataLineL kv) = (dictInsert st.1 kv.1 kv.2, st.2) := by
  obtain ⟨h1, h2, h3, h4, h5, h6⟩ := h
  obtain ⟨k, v⟩ := kv
  have hkne : k.toList ≠ [] := by
    intro hx
    exact h1 (by cases k; simp_all)
  cases v with
  | none =>
    have hline : metadataLineL (k, none) = '#' :: ' ' :: k.toList := rfl
    have hstrip : pyStripL ('#' :: ' ' :: k.toList) = '#' :: ' ' :: k.toList := by
      apply pyStripL_eq_self
      · intro c hc
        injection hc with hc2
        subst hc2
        decide
      · intro c hc
        rw [List.getLast?_cons_cons, getLast?_cons_of_ne_nil ' ' _ hkne] at hc
        exact of_opt_cond h5 c hc
    have hmeta := maybeMetaL_flag k.toList hkne (of_opt_cond h4)
      (of_opt_cond h5) h3
    rw [hline]
    unfold stepLine
    rw [hstrip, hmeta]
    rfl
  | some s =>
    unfold metaValOK at h6
    obtain ⟨hs1, hs2, hs3, hs4⟩ := h6
    have hsne : s.toList ≠ [] := by
      intro hx
      exact hs1 (by cases s; simp_all)
    have hline : metadataLineL (k, some s)
        = '#' :: ' ' :: (k.toList ++ ' ' :: '=' :: ' ' :: s.toList) := by
      simp [metadataLineL, hs1]
    have htail : (k.toList ++ ' ' :: '=' :: ' ' :: s.toList) ≠ [] := by
      simp [hkne]
    have hstrip : pyStripL (metadataLineL (k, some s))
        = metadataLineL (k, some s) := by
      rw [hline]
      apply pyStripL_eq_self
      · intro c hc
        injection hc with hc2
        subst hc2
        decide
      · intro c hc
        rw [List.getLast?_cons_cons, getLast?_cons_of_ne_nil ' ' _ htail,
          getLast?_append_of_ne_nil _ _ (by simp),
          List.getLast?_cons_cons, List.getLast?_cons_cons,
          getLast?_cons_of_ne_nil ' ' _ hsne] at hc
        exact of_opt_cond hs4 c hc
    have hmeta := maybeMetaL_valued k.toList s.toList hkne (of_opt_cond h4)
      (of_opt_cond h5) h3 (of_opt_cond hs3)
    rw [hline] at hstrip ⊢
    unfold stepLine
    rw [hstrip, hmeta]
    rfl

/-- The `stepLine` on the serialized line of a well-behaved token appends the
re-parsed token. -/
theorem stepLine_tokenLine (st : Metadata × List Token) (tok : Token)
    (h : tokenOK tok) :
    stepLine st (tokenLineL tok)
      = (st.1, st.2 ++ [parseTokenL (tokenLineL tok)]) := by
  obtain ⟨h1, h2, h3, h4, h5, h6⟩ := h
  have hid : (tokenGet tok "id" "_").toList ≠ [] := by
    intro hx
    exact h2 (by cases hs : tokenGet tok "id" "_"; simp_all)
  have hmisc : (tokenGet tok "misc" "_").toList ≠ [] := by
    intro hx
    exact h5 (by cases hs : tokenGet tok "misc" "_"; simp_all)
  have hcells : _fieldnames.map (fun f => (tokenGet tok f "_").toList)
      = (tokenGet tok "id" "_").toList ::
        (_fieldnames.drop 1).map (fun f => (tokenGet tok f "_").toList) := rfl
  have hhead : (tokenLineL tok).head? = (tokenGet tok "id" "_").toList.head? := by
    unfold tokenLineL
    rw [hcells]
    exact joinSep_head? _ _ _ hid
  have hlastlist : _fieldnames.map (fun f => (tokenGet tok f "_").toList)
      = (_fieldnames.take 9).map (fun f => (tokenGet tok f "_").toList)
        ++ [(tokenGet tok "misc" "_").toList] := rfl
  have hlast : (tokenLineL tok).getLast?
      = (tokenGet tok "misc" "_").toList.getLast? := by
    unfold tokenLineL
    rw [hlastlist]
    exact joinSep_getLast? _ _ _ hmisc
  have hstrip : pyStripL (tokenLineL tok) = tokenLineL tok := by
    apply pyStripL_eq_self
    · intro c hc
      rw [hhead] at hc
      exact of_opt_cond h3 c hc
    · intro c hc
      rw [hlast] at hc
      exact of_opt_cond h6 c hc
  have hmeta : maybeMetaL (tokenLineL tok) = none := by
    apply maybeMetaL_not_hash
    intro c hc
    rw [hhead] at hc
    exact h4 c (by rw [hc]; simp)
  unfold stepLine
  rw [hstrip, hmeta]

/-- Folding the classifier over serialized metadata lines records the
entries in order, appended to the running metadata. -/
theorem foldl_stepLine_meta (entries : Metadata) (md : Metadata)
    (toks : List Token) (hok : ∀ kv ∈ entries, metaEntryOK kv)
    (hnd : (entries.map Prod.fst).Nodup)
    (hfresh : ∀ kv ∈ entries, ∀ p ∈ md, p.1 ≠ kv.1) :
    (entries.map metadataLineL).foldl stepLine (md, toks)
      = (md ++ entries, toks) := by
  induction entries generalizing md with
  | nil => simp
  | cons e es ih =>
    rw [List.map_cons, List.foldl_cons,
      stepLine_metaLine (md, toks) e (hok e (List.mem_cons_self e es)),
      dictInsert_fresh md e.1 e.2
        (fun p hp => hfresh e (List.mem_cons_self e es) p hp)]
    rw [List.map_cons, List.nodup_cons] at hnd
    have hstep := ih (md ++ [(e.1, e.2)])
      (fun kv hkv => hok kv (List.mem_cons_of_mem e hkv)) hnd.2
      (by
        intro kv hkv p hp
        rcases List.mem_append.mp hp with hp1 | hp2
        · exact hfresh kv (List.mem_cons_of_mem e hkv) p hp1
        · simp only [List.mem_cons, List.not_mem_nil, or_false] at hp2
          subst hp2
          intro he
          exact hnd.1 (he ▸ List.mem_map_of_mem Prod.fst hkv))
    rw [hstep]
    simp

/-- Folding the classifier over serialized token lines appends the
re-parsed tokens in order and leaves metadata unchanged. -/
theorem foldl_stepLine_tokens (toks : List Token)
    (st : Metadata × List Token) (hok : ∀ t ∈ toks, tokenOK t) :
    (toks.map tokenLineL).foldl stepLine st
      = (st.1, st.2 ++ toks.map (fun t => parseTokenL (tokenLineL t))) := by
  induction toks generalizing st with
  | nil => simp
  | cons t ts ih =>
    rw [List.map_cons, List.foldl_cons,
      stepLine_tokenLine st t (hok t (List.mem_cons_self t ts)),
      ih _ (fun x hx => hok x (List.mem_cons_of_mem t hx))]
    simp

/-- Looking up each key of a duplicate-free key list in its zip with a
value list of the same length recovers the values. -/
theorem map_tokenGet_zip (keys : List String) (vals : List String)
    (hnd : keys.Nodup) (hlen : vals.length = keys.length) :
    keys.map (fun f => tokenGet (keys.zip vals) f "_") = vals := by
  induction keys generalizing vals with
  | nil =>
    cases vals with
    | nil => rfl
    | cons v vs => simp at hlen
  | cons k ks ih =>
    cases vals with
    | nil => simp at hlen
    | cons v vs =>
      rw [List.map_cons]
      rw [List.nodup_cons] at hnd
      have hfirst : tokenGet ((k :: ks).zip (v :: vs)) k "_" = v := by
        simp [tokenGet, tokenField, List.find?_cons]
      have hrest : ∀ f ∈ ks, tokenGet ((k :: ks).zip (v :: vs)) f "_"
          = tokenGet (ks.zip vs) f "_" := by
        intro f hf
        have hk : (k == f) = false := by
          rw [beq_eq_false_iff_ne]
          intro he
          exact hnd.1 (he ▸ hf)
        simp [tokenGet, tokenField, List.find?_cons, hk]
      rw [List.map_congr_left hrest, hfirst, ih vs hnd.2 (by simpa using hlen)]

/-- Re-parsing the serialized line of a well-behaved token yields a token
with identical rendered field values. -/
theorem renderFields_parseTokenLine (tok : Token) (h : tokenOK tok) :
    renderFields (parseTokenL (tokenLineL tok)) = renderFields tok := by
  have hcne : _fieldnames.map (fun f => (tokenGet tok f "_").toList) ≠ [] := by
    simp [_fieldnames]
  have htf : ∀ l ∈ _fieldnames.map (fun f => (tokenGet tok f "_").toList),
      tabFree l := by
    intro l hl
    rcases List.mem_map.mp hl with ⟨f, hf, rfl⟩
    intro c hc
    exact (h.1 f hf c hc).1
  have hsplit : splitTabL (tokenLineL tok)
      = _fieldnames.map (fun f => (tokenGet tok f "_").toList) :=
    splitTabL_joinSep _ hcne htf
  unfold parseTokenL
  rw [hsplit, List.map_map]
  have hmk : (String.mk ∘ fun f => (tokenGet tok f "_").toList)
      = fun f => tokenGet tok f "_" := by
    funext f
    rfl
  rw [hmk]
  exact map_tokenGet_zip _fieldnames
    (_fieldnames.map (fun f => tokenGet tok f "_")) (by decide) (by simp)

/-- Claim C1 (amended).  Round trip: for a Sentence Unit with at least one
metadata entry or token, duplicate-free metadata keys, metadata entries
whose keys are nonempty, tab/line-break-free, `=`-free and not
whitespace-edged and whose values are absent or nonempty,
tab/line-break-free and not whitespace-edged, and tokens whose rendered
cells are tab/line-break-free with a first cell that is nonempty and does
not start with whitespace or `#` and a last cell that is nonempty and does
not end with whitespace: `parse_from_string` applied to `serialize` output
yields identical metadata key/value pairs in identical order and identical
rendered token field values (absent fields as `_` on both sides). -/
theorem claim_C1_roundtrip (tl : TokenList)
    (hne : tl.metadata ≠ [] ∨ tl.tokens ≠ [])
    (hnd : (tl.metadata.map Prod.fst).Nodup)
    (hmd : ∀ kv ∈ tl.metadata, metaEntryOK kv)
    (htk : ∀ t ∈ tl.tokens, tokenOK t) :
    (parse_from_string tl.serialize).metadata = tl.metadata ∧
    (parse_from_string tl.serialize).tokens.map renderFields
      = tl.tokens.map renderFields := by
  have hlinesne : tl.metadata.map metadataLineL ++ tl.tokens.map tokenLineL
      ≠ [] := by
    rcases hne with h | h
    · intro hx
      exact h (List.map_eq_nil_iff.mp (List.append_eq_nil.mp hx).1)
    · intro hx
      exact h (List.map_eq_nil_iff.mp (List.append_eq_nil.mp hx).2)
  have hlinesok : ∀ l ∈ tl.metadata.map metadataLineL
      ++ tl.tokens.map tokenLineL, lineOK l := by
    intro l hl
    rcases List.mem_append.mp hl with h1 | h2
    · rcases List.mem_map.mp h1 with ⟨kv, hkv, rfl⟩
      exact metadataLineL_lineOK kv (hmd kv hkv)
    · rcases List.mem_map.mp h2 with ⟨t, ht, rfl⟩
      exact tokenLineL_lineOK t (htk t ht).1
  have hsplit : pySplitlinesL (TokenList.serialize tl).toList
      = tl.metadata.map metadataLineL ++ tl.tokens.map tokenLineL := by
    show pySplitlinesL tl.serializeL = _
    unfold TokenList.serializeL
    exact pySplitlinesL_joinSep _ hlinesne hlinesok
  have hfold : (tl.metadata.map metadataLineL
        ++ tl.tokens.map tokenLineL).foldl stepLine ([], [])
      = (tl.metadata, tl.tokens.map (fun t => parseTokenL (tokenLineL t))) := by
    rw [List.foldl_append]
    rw [foldl_stepLine_meta tl.metadata [] [] hmd hnd
      (by intro kv _ p hp; simp at hp)]
    rw [foldl_stepLine_tokens tl.tokens _ htk]
    simp
  constructor
  · show ((pySplitlinesL (TokenList.serialize tl).toList).foldl
      stepLine ([], [])).1 = _
    rw [hsplit, hfold]
  · show (((pySplitlinesL (TokenList.serialize tl).toList).foldl
      stepLine ([], [])).2).map renderFields = _
    rw [hsplit, hfold]
    rw [List.map_map]
    apply List.map_congr_left
    intro t ht
    exact renderFields_parseTokenLine t (htk t ht)

/-- Claim C1, as frozen, fails at the empty Sentence Unit (its field and
metadata values trivially contain no tab or newline): serializing it gives
a bare newline, which re-parses to one token with an empty first field
rather than to zero tokens. -/
theorem claim_C1_counterexample :
    (parse_from_string (TokenList.serialize ⟨[], []⟩)).tokens.map renderFields
      ≠ (TokenList.mk [] []).tokens.map renderFields := by
  decide

/-- Witness for the amended round trip at a concrete two-entry,
one-token Sentence Unit. -/
theorem claim_C1_roundtrip_witness :
    (∀ kv ∈ ([("newpar", none), ("sent_id", some "1")] : Metadata),
      metaEntryOK kv) ∧
    (∀ t ∈ ([[("id", "1"), ("form", "The")]] : List Token), tokenOK t) ∧
    (parse_from_string (TokenList.mk [[("id", "1"), ("form", "The")]]
        [("newpar", none), ("sent_id", some "1")]).serialize).metadata
      = [("newpar", none), ("sent_id", some "1")] ∧
    (parse_from_string (TokenList.mk [[("id", "1"), ("form", "The")]]
        [("newpar", none), ("sent_id", some "1")]).serialize).tokens.map
        renderFields
      = ([[("id", "1"), ("form", "The")]] : List Token).map renderFields :=
  ⟨by decide, by decide,
    (claim_C1_roundtrip
      (TokenList.mk [[("id", "1"), ("form", "The")]]
        [("newpar", none), ("sent_id", some "1")])
      (by simp) (by decide) (by decide) (by decide)).1,
    (claim_C1_roundtrip
      (TokenList.mk [[("id", "1"), ("form", "The")]]
        [("newpar", none), ("sent_id", some "1")])
      (by simp) (by decide) (by decide) (by decide)).2⟩

/-- The serialized line list of a nonempty Sentence Unit is nonempty. -/
theorem serializeLines_ne_nil (tl : TokenList)
    (hne : tl.metadata ≠ [] ∨ tl.tokens ≠ []) :
    tl.metadata.map metadataLineL ++ tl.tokens.map tokenLineL ≠ [] := by
  rcases hne with h | h
  · intro hx
    exact h (List.map_eq_nil_iff.mp (List.append_eq_nil.mp hx).1)
  · intro hx
    exact h (List.map_eq_nil_iff.mp (List.append_eq_nil.mp hx).2)

/-- Splitting the serialized output of a nonempty Sentence Unit whose
rendered lines contain no line breaks recovers exactly the rendered
metadata lines followed by the rendered token lines. -/
theorem pySplitlines_serializeL (tl : TokenList)
    (hne : tl.metadata ≠ [] ∨ tl.tokens ≠ [])
    (hok : ∀ l ∈ tl.metadata.map metadataLineL ++ tl.tokens.map tokenLineL,
      lineOK l) :
    pySplitlinesL tl.serializeL
      = tl.metadata.map metadataLineL ++ tl.tokens.map tokenLineL := by
  unfold TokenList.serializeL
  exact pySplitlinesL_joinSep _ (serializeLines_ne_nil tl hne) hok

/-- The source rendering of a metadata entry agrees with the amended
claim-side rendering. -/
theorem metadataLineL_eq_specAmended (kv : String × Option String) :
    metadataLineL kv = specMetadataLineAmended kv := by
  obtain ⟨k, v⟩ := kv
  cases v with
  | none => rfl
  | some s =>
    by_cases hs : s = ""
    · subst hs
      rfl
    · simp [metadataLineL, specMetadataLineAmended, hs]

/-- Claim C2 (amended).  For every nonempty Sentence Unit whose rendered
lines contain no line-break characters, serialization emits exactly one
line per metadata entry, in recorded order, rendered as `# key = value`
when the value is present and nonempty and as `# key` when it is absent or
empty; and parsing `# newpar` then `# sent_id = 1` yields the metadata
mapping with `newpar` bound to no value and `sent_id` bound to `1`, in
that order. -/
theorem claim_C2_metadata_lines (tl : TokenList)
    (hne : tl.metadata ≠ [] ∨ tl.tokens ≠ [])
    (hok : ∀ l ∈ tl.metadata.map metadataLineL ++ tl.tokens.map tokenLineL,
      lineOK l) :
    pySplitlinesL tl.serializeL
      = tl.metadata.map specMetadataLineAmended ++ tl.tokens.map tokenLineL ∧
    (parse_from_string "# newpar\n# sent_id = 1\n1\tThe\tthe\tDET\n").metadata
      = [("newpar", none), ("sent_id", some "1")] := by
  constructor
  · rw [pySplitlines_serializeL tl hne hok]
    rw [List.map_congr_left (fun kv _ => metadataLineL_eq_specAmended kv)]
  · decide

/-- Claim C2, as frozen, fails at a Sentence Unit with the metadata entry
`("k", some "")`: the value is present (not None), yet the code's
truthiness test renders the line as `# k` rather than `# k = `. -/
theorem claim_C2_counterexample :
    pySplitlinesL (TokenList.serializeL ⟨[], [("k", some "")]⟩)
      ≠ ([("k", some "")] : Metadata).map specMetadataLine := by
  decide

/-- Witness for the amended metadata-line claim at a concrete unit. -/
theorem claim_C2_metadata_lines_witness :
    ((TokenList.mk [] [("newpar", none), ("sent_id", some "1")]).metadata ≠ []
      ∨ (TokenList.mk [] [("newpar", none), ("sent_id", some "1")]).tokens ≠ []) ∧
    (pySplitlinesL (TokenList.serializeL
        (TokenList.mk [] [("newpar", none), ("sent_id", some "1")]))
      = ([("newpar", none), ("sent_id", some "1")] : Metadata).map
          specMetadataLineAmended
        ++ ([] : List Token).map tokenLineL ∧
    (parse_from_string "# newpar\n# sent_id = 1\n1\tThe\tthe\tDET\n").metadata
      = [("newpar", none), ("sent_id", some "1")]) :=
  ⟨by decide,
    claim_C2_metadata_lines
      (TokenList.mk [] [("newpar", none), ("sent_id", some "1")])
      (by decide) (by decide)⟩

/-- Claim C8, as frozen, fails unconditionally: a token whose `misc` value
contains a newline serializes to output whose line split is not one line
per token (the split ends in a spurious blank line), and the empty
Sentence Unit serializes to a bare newline, i.e. a single trailing blank
line instead of no lines at all. -/
theorem claim_C8_counterexample :
    pySplitlinesL (TokenList.serializeL ⟨[[("id", "1"), ("misc", "x\n")]], []⟩)
      ≠ ([[("id", "1"), ("misc", "x\n")]] : List Token).map tokenLineL ∧
    pySplitlinesL (TokenList.serializeL ⟨[], []⟩) ≠ [] := by
  constructor <;> decide

/-- Claim C8 (amended).  For every nonempty Sentence Unit whose rendered
lines are free of line breaks, the serialized output splits into exactly
one line per metadata entry followed by one line per token in sequence
order, with no trailing blank line; the output always ends in a newline;
and the sparse token with only `id` and `form` set renders as the
canonical ten-column line with `_` placeholders. -/
theorem claim_C8_serialize_tokens (tl : TokenList)
    (hne : tl.metadata ≠ [] ∨ tl.tokens ≠ [])
    (hok : ∀ l ∈ tl.metadata.map metadataLineL ++ tl.tokens.map tokenLineL,
      lineOK l) :
    pySplitlinesL tl.serializeL
      = tl.metadata.map metadataLineL ++ tl.tokens.map tokenLineL ∧
    tl.serializeL.getLast? = some '\n' ∧
    tokenLineL [("id", "1"), ("form", "The")]
      = "1\tThe\t_\t_\t_\t_\t_\t_\t_\t_".toList := by
  refine ⟨pySplitlines_serializeL tl hne hok, ?_, by decide⟩
  unfold TokenList.serializeL
  rw [getLast?_append_of_ne_nil _ _ (by simp)]
  rfl

/-- Witness for the serializer claim at a concrete one-token unit. -/
theorem claim_C8_serialize_tokens_witness :
    ((TokenList.mk [[("id", "1"), ("form", "The")]] []).metadata ≠ []
      ∨ (TokenList.mk [[("id", "1"), ("form", "The")]] []).tokens ≠ []) ∧
    (pySplitlinesL (TokenList.serializeL
        (TokenList.mk [[("id", "1"), ("form", "The")]] []))
      = ([] : Metadata).map metadataLineL
        ++ ([[("id", "1"), ("form", "The")]] : List Token).map tokenLineL ∧
    (TokenList.serializeL
        (TokenList.mk [[("id", "1"), ("form", "The")]] [])).getLast?
      = some '\n' ∧
    tokenLineL [("id", "1"), ("form", "The")]
      = "1\tThe\t_\t_\t_\t_\t_\t_\t_\t_".toList) :=
  ⟨by decide,
    claim_C8_serialize_tokens
      (TokenList.mk [[("id", "1"), ("form", "The")]] [])
      (by decide) (by decide)⟩

/-- Looking up the `j`-th key of a duplicate-free key list in its zip with
a value list yields the `j`-th value when present and nothing otherwise. -/
theorem tokenField_zip (keys : List String) (vals : List String)
    (hnd : keys.Nodup) (j : Nat) (f : String) (hf : keys[j]? = some f) :
    tokenField (keys.zip vals) f = vals[j]? := by
  induction keys generalizing vals j with
  | nil => simp at hf
  | cons k ks ih =>
    cases vals with
    | nil => simp [tokenField]
    | cons v vs =>
      rw [List.nodup_cons] at hnd
      cases j with
      | zero =>
        rw [List.getElem?_cons_zero] at hf
        injection hf with hf2
        subst hf2
        simp [tokenField, List.find?_cons]
      | succ j2 =>
        rw [List.getElem?_cons_succ] at hf
        have hfm : f ∈ ks := List.getElem?_mem hf
        have hk : (k == f) = false := by
          rw [beq_eq_false_iff_ne]
          intro he
          exact hnd.1 (he ▸ hfm)
        rw [List.getElem?_cons_succ]
        rw [show (k :: ks).zip (v :: vs) = (k, v) :: ks.zip vs from rfl]
        rw [show tokenField ((k, v) :: ks.zip vs) f = tokenField (ks.zip vs) f
          from by simp [tokenField, List.find?_cons, hk]]
        exact ih vs hnd.2 j2 hf

/-- Claim C3.  Token-line parsing splits on tabs and maps values
positionally onto the ten-field schema: the parsed token binds the `j`-th
schema field to the `j`-th cell, so fewer than ten cells leave the
remaining fields absent and surplus cells beyond the tenth are dropped
(the token holds `min 10 cells` fields); the two-column line `1<TAB>The`
parses to a token with only the first two schema fields set. -/
theorem claim_C3_positional (line : String) :
    (_parse_token line).length
      = min _fieldnames.length (splitTabL line.toList).length ∧
    (∀ (j : Nat) (f : String), _fieldnames[j]? = some f →
      tokenField (_parse_token line) f
        = ((splitTabL line.toList).map String.mk)[j]?) ∧
    _parse_token "1\tThe" = [("id", "1"), ("form", "The")] := by
  refine ⟨?_, ?_, by decide⟩
  · show (parseTokenL line.toList).length = _
    unfold parseTokenL
    simp [List.length_zip]
  · intro j f hf
    exact tokenField_zip _fieldnames ((splitTabL line.toList).map String.mk)
      (by decide) j f hf

/-- Witness for positional token parsing at a twelve-column line: the
fourth schema field receives the fourth cell, and the two surplus cells
are dropped. -/
theorem claim_C3_positional_witness :
    (_fieldnames[3]? = some "upos") ∧
    tokenField (_parse_token "a\tb\tc\td\te\tf\tg\th\ti\tj\tk\tl") "upos"
      = ((splitTabL ("a\tb\tc\td\te\tf\tg\th\ti\tj\tk\tl" : String).toList).map
          String.mk)[3]? ∧
    (_parse_token "a\tb\tc\td\te\tf\tg\th\ti\tj\tk\tl").length
      = min _fieldnames.length
          (splitTabL ("a\tb\tc\td\te\tf\tg\th\ti\tj\tk\tl" : String).toList).length :=
  ⟨by decide,
    (claim_C3_positional "a\tb\tc\td\te\tf\tg\th\ti\tj\tk\tl").2.1 3 "upos"
      (by decide),
    (claim_C3_positional "a\tb\tc\td\te\tf\tg\th\ti\tj\tk\tl").1⟩

/-- A blank line emits a snapshot when something is accumulated and is a
no-op otherwise. -/
theorem parseFromLines_cons_blank (l : String) (rest : List String)
    (md : Metadata) (toks : List Token) (hl : isBlankLine l = true) :
    parseFromLines (l :: rest) md toks
      = if toks.isEmpty && md.isEmpty then parseFromLines rest md toks
        else ⟨toks, md⟩ :: parseFromLines rest [] [] := by
  unfold isBlankLine at hl
  rw [parseFromLines.eq_def]
  simp only [hl, if_true]

/-- A non-blank line is classified by the shared line classifier and folded
into the accumulators. -/
theorem parseFromLines_cons_nonblank (l : String) (rest : List String)
    (md : Metadata) (toks : List Token) (hl : isBlankLine l = false) :
    parseFromLines (l :: rest) md toks
      = parseFromLines rest (stepLine (md, toks) l.toList).1
          (stepLine (md, toks) l.toList).2 := by
  unfold isBlankLine at hl
  rw [parseFromLines.eq_def]
  simp only [hl, Bool.false_eq_true, if_false]

/-- The streaming loop inspects only the head line and the accumulators,
so pointwise-equal continuations yield equal results. -/
theorem parseFromLines_cons_congr (l : String) (X Y : List String)
    (h : ∀ md toks, parseFromLines X md toks = parseFromLines Y md toks)
    (md : Metadata) (toks : List Token) :
    parseFromLines (l :: X) md toks = parseFromLines (l :: Y) md toks := by
  cases hb : isBlankLine l with
  | true =>
    rw [parseFromLines_cons_blank l X md toks hb,
      parseFromLines_cons_blank l Y md toks hb]
    by_cases he : (toks.isEmpty && md.isEmpty) = true
    · rw [if_pos he, if_pos he, h]
    · rw [if_neg he, if_neg he, h]
  | false =>
    rw [parseFromLines_cons_nonblank l X md toks hb,
      parseFromLines_cons_nonblank l Y md toks hb, h]

/-- Collapsing runs of blank lines does not change the parsed sequence,
whatever the accumulator state (length-bounded induction). -/
theorem parseFromLines_collapse_aux (n : Nat) :
    ∀ (lines : List String), lines.length ≤ n → ∀ md toks,
      parseFromLines (collapseBlanks lines) md toks
        = parseFromLines lines md toks := by
  induction n with
  | zero =>
    intro lines hlen md toks
    have hnil : lines = [] := List.length_eq_zero.mp (Nat.le_zero.mp hlen)
    subst hnil
    rfl
  | succ n ih =>
    intro lines hlen md toks
    rcases lines with _ | ⟨l, _ | ⟨l2, rest⟩⟩
    · rfl
    · rfl
    · by_cases hb : (isBlankLine l && isBlankLine l2) = true
      · have hc : collapseBlanks (l :: l2 :: rest)
            = collapseBlanks (l2 :: rest) := by
          simp [collapseBlanks, hb]
        have hlen2 : (l2 :: rest).length ≤ n := by
          simp only [List.length_cons] at hlen ⊢
          omega
        rw [hc, ih (l2 :: rest) hlen2 md toks]
        rw [Bool.and_eq_true] at hb
        rw [parseFromLines_cons_blank l (l2 :: rest) md toks hb.1]
        by_cases he : (toks.isEmpty && md.isEmpty) = true
        · rw [if_pos he]
        · rw [if_neg he]
          rw [parseFromLines_cons_blank l2 rest md toks hb.2, if_neg he,
            parseFromLines_cons_blank l2 rest [] [] hb.2]
          simp
      · have hc : collapseBlanks (l :: l2 :: rest)
            = l :: collapseBlanks (l2 :: rest) := by
          simp only [collapseBlanks]
          rw [if_neg hb]
        have hlen2 : (l2 :: rest).length ≤ n := by
          simp only [List.length_cons] at hlen ⊢
          omega
        rw [hc]
        exact parseFromLines_cons_congr l _ _
          (fun md2 toks2 => ih (l2 :: rest) hlen2 md2 toks2) md toks

/-- Claim C4.  In the streaming assembler a blank line emits one snapshot
of the in-progress metadata and tokens and clears both accumulators when
at least one is nonempty, and is a no-op when both are empty;
consequently every line source parses to the same Sentence Unit sequence
as the source with runs of consecutive blank lines (leading runs
included) collapsed to single blank lines. -/
theorem claim_C4_blank_separator :
    (∀ (l : String) (rest : List String) (md : Metadata) (toks : List Token),
      isBlankLine l = true →
      parseFromLines (l :: rest) md toks
        = if toks.isEmpty && md.isEmpty then parseFromLines rest md toks
          else ⟨toks, md⟩ :: parseFromLines rest [] []) ∧
    (∀ lines : List String,
      _parse_from_handle lines = _parse_from_handle (collapseBlanks lines)) := by
  constructor
  · exact fun l rest md toks hl => parseFromLines_cons_blank l rest md toks hl
  · intro lines
    exact (parseFromLines_collapse_aux lines.length lines (Nat.le_refl _)
      [] []).symm

/-- Witness for the blank-line claim: a blank line flushes a pending
metadata-only unit, and a source with leading and duplicate blank lines
parses like its collapsed form. -/
theorem claim_C4_blank_separator_witness :
    isBlankLine "" = true ∧
    parseFromLines ["", "1\tx"] [("a", none)] []
      = (if ([] : List Token).isEmpty && ([("a", none)] : Metadata).isEmpty
          then parseFromLines ["1\tx"] [("a", none)] []
          else ⟨[], [("a", none)]⟩ :: parseFromLines ["1\tx"] [] []) ∧
    _parse_from_handle ["", "", "1\tx", "", ""]
      = _parse_from_handle (collapseBlanks ["", "", "1\tx", "", ""]) :=
  ⟨by decide,
    claim_C4_blank_separator.1 "" ["1\tx"] [("a", none)] [] (by decide),
    claim_C4_blank_separator.2 ["", "", "1\tx", "", ""]⟩

/-- Claim C9.  An empty source, or one consisting only of blank lines,
yields zero Sentence Units. -/
theorem claim_C9_empty_source :
    _parse_from_handle [] = [] ∧
    (∀ lines : List String, (∀ l ∈ lines, isBlankLine l = true) →
      _parse_from_handle lines = []) := by
  refine ⟨rfl, ?_⟩
  intro lines h
  show parseFromLines lines [] [] = []
  induction lines with
  | nil => rfl
  | cons l ls ih =>
    rw [parseFromLines_cons_blank l ls [] [] (h l (List.mem_cons_self l ls))]
    simpa using ih (fun x hx => h x (List.mem_cons_of_mem l hx))

/-- Witness for the empty-source claim at a three-blank-line source. -/
theorem claim_C9_empty_source_witness :
    (∀ l ∈ (["", "  \n", "\t"] : List String), isBlankLine l = true) ∧
    _parse_from_handle ["", "  \n", "\t"] = [] :=
  ⟨by decide, claim_C9_empty_source.2 ["", "  \n", "\t"] (by decide)⟩

/-- End of input with a nonempty accumulator flushes exactly one final
unit. -/
theorem parseFromLines_nil_flush (md : Metadata) (toks : List Token)
    (h : md ≠ [] ∨ toks ≠ []) : parseFromLines [] md toks = [⟨toks, md⟩] := by
  rw [parseFromLines.eq_def]
  simp only []
  rw [if_neg]
  intro hx
  rw [Bool.and_eq_true] at hx
  rcases h with h | h
  · exact h (by simpa using hx.2)
  · exact h (by simpa using hx.1)

/-- One classified line always leaves a nonempty accumulator pair. -/
theorem stepLine_result_ne (st : Metadata × List Token) (raw : List Char) :
    (stepLine st raw).1 ≠ [] ∨ (stepLine st raw).2 ≠ [] := by
  unfold stepLine
  cases hm : maybeMetaL (pyStripL raw) with
  | some kv =>
    obtain ⟨k, v⟩ := kv
    left
    show dictInsert st.1 (String.mk k) (v.map String.mk) ≠ []
    unfold dictInsert
    split
    · rename_i hany
      intro hx
      rw [List.map_eq_nil_iff] at hx
      rw [hx] at hany
      simp at hany
    · simp
  | none =>
    right
    show st.2 ++ [parseTokenL (pyStripL raw)] ≠ []
    simp

/-- Folding the classifier over a nonempty line block, from any state,
leaves a nonempty accumulator pair. -/
theorem foldl_stepLine_ne (b : List (List Char)) (st : Metadata × List Token)
    (h : b ≠ [] ∨ (st.1 ≠ [] ∨ st.2 ≠ [])) :
    (b.foldl stepLine st).1 ≠ [] ∨ (b.foldl stepLine st).2 ≠ [] := by
  induction b generalizing st with
  | nil =>
    rcases h with h | h
    · exact absurd rfl h
    · simpa using h
  | cons l ls ih =>
    rw [List.foldl_cons]
    exact ih (stepLine st l) (Or.inr (stepLine_result_ne st l))

/-- Consuming a run of non-blank lines folds the classifier over them. -/
theorem parseFromLines_nonblank (b : List String)
    (hb : ∀ l ∈ b, isBlankLine l = false) (rest : List String)
    (md : Metadata) (toks : List Token) :
    parseFromLines (b ++ rest) md toks
      = parseFromLines rest
          ((b.map (fun l => l.toList)).foldl stepLine (md, toks)).1
          ((b.map (fun l => l.toList)).foldl stepLine (md, toks)).2 := by
  induction b generalizing md toks with
  | nil => simp
  | cons l ls ih =>
    rw [List.cons_append,
      parseFromLines_cons_nonblank l (ls ++ rest) md toks
        (hb l (List.mem_cons_self l ls))]
    rw [ih (fun x hx => hb x (List.mem_cons_of_mem l hx))
      (stepLine (md, toks) l.toList).1 (stepLine (md, toks) l.toList).2]
    rfl

/-- A document of nonempty non-blank blocks joined by single blank lines
parses to one Sentence Unit per block, in order. -/
theorem parse_blocks (blocks : List (List String))
    (hb : ∀ b ∈ blocks, b ≠ [] ∧ ∀ l ∈ b, isBlankLine l = false) :
    parseFromLines (joinSep [""] blocks) [] [] = blocks.map blockUnit := by
  induction blocks with
  | nil => rfl
  | cons b bs ih =>
    obtain ⟨hbne, hbnb⟩ := hb b (List.mem_cons_self b bs)
    have hfoldne := foldl_stepLine_ne (b.map (fun l => l.toList)) ([], [])
      (Or.inl (by simpa using hbne))
    cases bs with
    | nil =>
      have h1 : parseFromLines (b ++ []) [] [] = [blockUnit b] := by
        rw [parseFromLines_nonblank b hbnb [] [] []]
        exact parseFromLines_nil_flush _ _ hfoldne
      rw [List.append_nil] at h1
      exact h1
    | cons b2 bs2 =>
      rw [joinSep_cons _ _ _ (by simp), List.append_assoc]
      rw [show ([""] ++ joinSep [""] (b2 :: bs2))
          = "" :: joinSep [""] (b2 :: bs2) from rfl]
      rw [parseFromLines_nonblank b hbnb _ [] []]
      rw [parseFromLines_cons_blank "" _ _ _ (by decide)]
      rw [if_neg (by
        intro hx
        rw [Bool.and_eq_true] at hx
        rcases hfoldne with h | h
        · exact h (by simpa using hx.2)
        · exact h (by simpa using hx.1))]
      rw [ih (fun x hx => hb x (List.mem_cons_of_mem b hx))]
      rfl

/-- Claim C5.  At end of input, nonempty accumulators are flushed as
exactly one final Sentence Unit (no trailing blank line required), and a
source of N nonempty, blank-free sentence blocks joined by single blank
lines yields exactly N Sentence Units, in source order. -/
theorem claim_C5_eof_and_count :
    (∀ (md : Metadata) (toks : List Token), md ≠ [] ∨ toks ≠ [] →
      parseFromLines [] md toks = [⟨toks, md⟩]) ∧
    (∀ blocks : List (List String),
      (∀ b ∈ blocks, b ≠ [] ∧ ∀ l ∈ b, isBlankLine l = false) →
      _parse_from_handle (joinSep [""] blocks) = blocks.map blockUnit ∧
      (_parse_from_handle (joinSep [""] blocks)).length = blocks.length) := by
  refine ⟨parseFromLines_nil_flush, ?_⟩
  intro blocks h
  have hpb := parse_blocks blocks h
  exact ⟨hpb, by rw [show _parse_from_handle (joinSep [""] blocks)
    = parseFromLines (joinSep [""] blocks) [] [] from rfl, hpb]; simp⟩

/-- Witness for the end-of-input claim: a metadata-only accumulator is
flushed, and a two-block document with no trailing blank line yields two
units. -/
theorem claim_C5_eof_and_count_witness :
    (([("a", none)] : Metadata) ≠ [] ∨ ([] : List Token) ≠ []) ∧
    parseFromLines [] [("a", none)] [] = [⟨[], [("a", none)]⟩] ∧
    (∀ b ∈ ([["# a", "1\tx"], ["2\ty"]] : List (List String)),
      b ≠ [] ∧ ∀ l ∈ b, isBlankLine l = false) ∧
    _parse_from_handle (joinSep [""] [["# a", "1\tx"], ["2\ty"]])
      = ([["# a", "1\tx"], ["2\ty"]] : List (List String)).map blockUnit ∧
    (_parse_from_handle (joinSep [""] [["# a", "1\tx"], ["2\ty"]])).length
      = ([["# a", "1\tx"], ["2\ty"]] : List (List String)).length :=
  ⟨by decide,
    claim_C5_eof_and_count.1 [("a", none)] [] (by decide),
    by decide,
    (claim_C5_eof_and_count.2 [["# a", "1\tx"], ["2\ty"]] (by decide)).1,
    (claim_C5_eof_and_count.2 [["# a", "1\tx"], ["2\ty"]] (by decide)).2⟩

/-- Claim C6.  A stripped line that the metadata pattern rejects —
in particular any line starting with `#` that fails the pattern — is
handled as a token line by the shared classifier in both parsers, with no
failure path: the whole-buffer fold appends its positional token parse,
the streaming loop does the same, and the concrete malformed comment
`#comment` (no whitespace after `#`) parses as a token whose first field
is the whole line. -/
theorem claim_C6_malformed_hash :
    (∀ (st : Metadata × List Token) (raw : List Char),
      maybeMetaL (pyStripL raw) = none →
      stepLine st raw = (st.1, st.2 ++ [parseTokenL (pyStripL raw)])) ∧
    (∀ (l : String) (rest : List String) (md : Metadata) (toks : List Token),
      isBlankLine l = false → maybeMetaL (pyStripL l.toList) = none →
      parseFromLines (l :: rest) md toks
        = parseFromLines rest md (toks ++ [parseTokenL (pyStripL l.toList)])) ∧
    _maybe_parse_metadata "#comment" = none ∧
    parse_from_string "#comment" = ⟨[[("id", "#comment")]], []⟩ := by
  refine ⟨?_, ?_, by decide, by decide⟩
  · intro st raw h
    unfold stepLine
    rw [h]
  · intro l rest md toks hbl hm
    rw [parseFromLines_cons_nonblank l rest md toks hbl]
    have hstep : stepLine (md, toks) l.toList
        = (md, toks ++ [parseTokenL (pyStripL l.toList)]) := by
      unfold stepLine
      rw [hm]
    rw [hstep]

/-- Witness for the malformed-comment claim at the line `#bad x`. -/
theorem claim_C6_malformed_hash_witness :
    maybeMetaL (pyStripL ("#bad x" : String).toList) = none ∧
    isBlankLine "#bad x" = false ∧
    parseFromLines ["#bad x"] [] []
      = parseFromLines [] [] ([] ++ [parseTokenL (pyStripL ("#bad x" : String).toList)]) :=
  ⟨by decide, by decide,
    claim_C6_malformed_hash.2.1 "#bad x" [] [] [] (by decide) (by decide)⟩

/-- Inserting an existing key overwrites its value in place: the key
sequence is unchanged and lookup finds the new value. -/
theorem dictInsert_existing (d : Metadata) (k : String) (v : Option String)
    (h : d.any (fun p => p.1 == k) = true) :
    (dictInsert d k v).map Prod.fst = d.map Prod.fst ∧
    (dictInsert d k v).find? (fun p => p.1 == k) = some (k, v) := by
  unfold dictInsert
  rw [if_pos h]
  constructor
  · rw [List.map_map]
    apply List.map_congr_left
    intro p hp
    by_cases hpk : (p.1 == k) = true
    · have hpe : p.1 = k := eq_of_beq hpk
      simp [Function.comp, hpk, hpe]
    · simp [Function.comp, hpk]
  · induction d with
    | nil => simp at h
    | cons p ps ih =>
      rw [List.map_cons]
      by_cases hpk : (p.1 == k) = true
      · rw [if_pos hpk]
        simp [List.find?_cons]
      · have hpk2 : (p.1 == k) = false := by
          cases hx : (p.1 == k) with
          | true => exact absurd hx hpk
          | false => rfl
        rw [if_neg hpk, List.find?_cons]
        simp only [hpk2]
        have h2 : ps.any (fun q => q.1 == k) = true := by
          rw [List.any_cons] at h
          simpa [hpk2] using h
        exact ih h2

/-- Folding the classifier over lines that all classify as token lines
appends their positional parses, in source order. -/
theorem foldl_stepLine_tokenlines (ls : List (List Char))
    (h : ∀ l ∈ ls, maybeMetaL (pyStripL l) = none)
    (st : Metadata × List Token) :
    ls.foldl stepLine st
      = (st.1, st.2 ++ ls.map (fun l => parseTokenL (pyStripL l))) := by
  induction ls generalizing st with
  | nil => simp
  | cons l ls2 ih =>
    rw [List.foldl_cons]
    have hstep : stepLine st l = (st.1, st.2 ++ [parseTokenL (pyStripL l)]) := by
      unfold stepLine
      rw [h l (List.mem_cons_self l ls2)]
    rw [hstep, ih (fun x hx => h x (List.mem_cons_of_mem l hx))]
    simp

/-- Claim C7.  Metadata preserves first-insertion order with last-write-
wins in place: a fresh key appends, an existing key keeps the key sequence
and overwrites the value; a concrete duplicate-key buffer parses
accordingly; tokens are appended in source line order; and units are
emitted in source block order. -/
theorem claim_C7_order_invariants :
    (∀ (d : Metadata) (k : String) (v : Option String),
      d.any (fun p => p.1 == k) = false → dictInsert d k v = d ++ [(k, v)]) ∧
    (∀ (d : Metadata) (k : String) (v : Option String),
      d.any (fun p => p.1 == k) = true →
      (dictInsert d k v).map Prod.fst = d.map Prod.fst ∧
      (dictInsert d k v).find? (fun p => p.1 == k) = some (k, v)) ∧
    (parse_from_string "# a = 1\n# b = 2\n# a = 3").metadata
      = [("a", some "3"), ("b", some "2")] ∧
    (∀ (ls : List (List Char)), (∀ l ∈ ls, maybeMetaL (pyStripL l) = none) →
      ∀ st : Metadata × List Token,
      ls.foldl stepLine st
        = (st.1, st.2 ++ ls.map (fun l => parseTokenL (pyStripL l)))) ∧
    (∀ blocks : List (List String),
      (∀ b ∈ blocks, b ≠ [] ∧ ∀ l ∈ b, isBlankLine l = false) →
      _parse_from_handle (joinSep [""] blocks) = blocks.map blockUnit) := by
  refine ⟨?_, dictInsert_existing, by decide, foldl_stepLine_tokenlines, parse_blocks⟩
  intro d k v h
  unfold dictInsert
  rw [if_neg (by simp [h])]

/-- Witness for the ordering claim at concrete dictionaries and sources. -/
theorem claim_C7_order_invariants_witness :
    ([("b", none)] : Metadata).any (fun p => p.1 == "a") = false ∧
    dictInsert [("b", none)] "a" (some "1")
      = [("b", none)] ++ [("a", some "1")] ∧
    ([("a", some "1"), ("b", none)] : Metadata).any
      (fun p => p.1 == "a") = true ∧
    (dictInsert [("a", some "1"), ("b", none)] "a" (some "2")).map Prod.fst
      = ([("a", some "1"), ("b", none)] : Metadata).map Prod.fst ∧
    (dictInsert [("a", some "1"), ("b", none)] "a" (some "2")).find?
      (fun p => p.1 == "a") = some ("a", some "2") :=
  ⟨by decide,
    claim_C7_order_invariants.1 [("b", none)] "a" (some "1") (by decide),
    by decide,
    (claim_C7_order_invariants.2.1 [("a", some "1"), ("b", none)] "a"
      (some "2") (by decide)).1,
    (claim_C7_order_invariants.2.1 [("a", some "1"), ("b", none)] "a"
      (some "2") (by decide)).2⟩

/-- Claim C10.  In the whole-buffer parser a blank line is neither a
delimiter nor skipped: any line that strips to the empty string is parsed
as a token binding the first schema field to the empty string and leaving
the other nine absent; and the empty buffer yields one Sentence Unit with
zero tokens and empty metadata. -/
theorem claim_C10_blank_lines_in_buffer :
    (∀ (st : Metadata × List Token) (raw : List Char), pyStripL raw = [] →
      stepLine st raw = (st.1, st.2 ++ [[("id", "")]])) ∧
    parse_from_string "" = ⟨[], []⟩ ∧
    parse_from_string "1\tThe\n\n2\tdog"
      = ⟨[[("id", "1"), ("form", "The")], [("id", "")],
          [("id", "2"), ("form", "dog")]], []⟩ := by
  refine ⟨?_, by decide, by decide⟩
  intro st raw h
  unfold stepLine
  rw [h]
  rfl

/-- Witness for the in-buffer blank-line claim at a whitespace-only
line. -/
theorem claim_C10_blank_lines_in_buffer_witness :
    pyStripL ("  " : String).toList = [] ∧
    stepLine ([], [[("id", "x")]]) ("  " : String).toList
      = ([], [[("id", "x")]] ++ [[("id", "")]]) :=
  ⟨by decide,
    claim_C10_blank_lines_in_buffer.1 ([], [[("id", "x")]])
      ("  " : String).toList (by decide)⟩

end Conllu
